import Mathlib

/-!
Shallow embedding of the batched single-site Metropolis–Hastings sampler
(`detail::Flipper` and `MetropolisLocalV2` from
`Sources/Sampler/metropolis_local_v2.cc`).

Modelling choices:
* Site values (C++ `double`, used only through copies and order comparisons)
  are modelled as `ℚ`; log-amplitudes (C++ `Complex`) as `ℂ`, and the
  uniform real draws of the acceptance test as `ℝ`.
* The random engine is modelled by explicit draw streams: a function giving,
  for each cell or chain, the integer produced by
  `std::uniform_int_distribution` (its range contract — the result lies in
  the requested closed interval — becomes a hypothesis of the theorems), and
  a function `ℕ → ℝ` for the per-chain `std::uniform_real_distribution{}`
  draws of `Next`.
* Eigen matrices/vectors become total functions `ℕ → ℕ → ℚ` / `ℕ → ℂ`;
  the loops of the C++ run over `j < batchSize`, which reappears as the
  guard of the pointwise update.
* The amplitude machine `RbmSpinV2::LogVal` computes, for each row of the
  input matrix, the log-amplitude of that row; it is modelled by an opaque
  per-row function `machine : (ℕ → ℚ) → ℂ` applied row-wise.
* A C++ `throw` is an `Except.error`; `InvalidInputError` carries its
  message string.
-/

namespace Netket

/-- State of `detail::Flipper`: batch shape, the (sorted) local alphabet
`local_states_`, the per-chain proposal buffers `sites_` and `values_`, and
the configuration matrix `state_`. -/
structure Flipper where
  batchSize : ℕ
  systemSize : ℕ
  localStates : List ℚ
  sites : ℕ → ℕ
  values : ℕ → ℚ
  state : ℕ → ℕ → ℚ

/-- The body of the lambda `g` in `Flipper::RandomValues`:
`local_states_[idx + (local_states_[idx] >= cur)]` where `cur` is the current
value at the proposed site.  Out-of-range accesses (possible only when the
distribution contract is violated) default to `0`. -/
def proposeValue (ls : List ℚ) (cur : ℚ) (idx : ℕ) : ℚ :=
  ls.getD (idx + if ls.getD idx 0 ≥ cur then 1 else 0) 0

/-- Model of `Flipper::RandomState`: every cell of `state_` is set to
`local_states_[d]` for a fresh draw `d` of `uniform_int_distribution{0, |alphabet|-1}`. -/
def Flipper.RandomState (f : Flipper) (dState : ℕ → ℕ → ℕ) : Flipper :=
  { f with state := fun j s => f.localStates.getD (dState j s) 0 }

/-- Model of `Flipper::RandomSites`: every entry of `sites_` is a fresh draw of
`uniform_int_distribution{0, SystemSize()-1}`. -/
def Flipper.RandomSites (f : Flipper) (dSites : ℕ → ℕ) : Flipper :=
  { f with sites := dSites }

/-- Model of `Flipper::RandomValues`: for every chain `j`, `values_(j) = g(j)` where
`g` draws `idx` from `uniform_int_distribution{0, |alphabet|-2}` and returns
`local_states_[idx + (local_states_[idx] >= state_(j, sites_(j)))]`. -/
def Flipper.RandomValues (f : Flipper) (dVals : ℕ → ℕ) : Flipper :=
  { f with values := fun j => proposeValue f.localStates (f.state j (f.sites j)) (dVals j) }

/-- Model of `Flipper::Reset`: `RandomState(); RandomSites(); RandomValues();`. -/
def Flipper.Reset (f : Flipper) (dState : ℕ → ℕ → ℕ) (dSites dVals : ℕ → ℕ) : Flipper :=
  ((f.RandomState dState).RandomSites dSites).RandomValues dVals

/-- Model of `Flipper::Next(accept)`: for every `j < BatchSize()` with `accept[j]`,
write `state_(j, sites_(j)) = values_(j)`; then `RandomSites(); RandomValues();`. -/
def Flipper.Next (f : Flipper) (accept : ℕ → Bool) (dSites dVals : ℕ → ℕ) : Flipper :=
  (({ f with
      state := fun j s =>
        if j < f.batchSize ∧ accept j = true ∧ s = f.sites j then f.values j
        else f.state j s }).RandomSites dSites).RandomValues dVals

/-- Model of `Flipper::Read(Eigen::Ref<RowMatrix<double>> x)`: copy `state_` into the
output buffer, then for every chain `j < BatchSize()` overwrite the single
proposed site `sites_(j)` with `values_(j)`.  The result is the materialized
proposed batch; `state_` itself is untouched (the member function is `const`). -/
def Flipper.Read (f : Flipper) : ℕ → ℕ → ℚ :=
  fun j s => if j < f.batchSize ∧ s = f.sites j then f.values j else f.state j s

/-- The successful branch of the `Flipper` constructor: store the alphabet
sorted ascending (`std::sort`; since `ℚ` is totally ordered, the sorted
permutation of a list is unique, so any correct sorting algorithm models
it), allocate the buffers and call `Reset`.  (The freshly resized Eigen
buffers are uninitialized; `Reset` overwrites all of them, so the
placeholder contents `0` are never observable.) -/
def Flipper.construct0 (batch system : ℕ) (ls : List ℚ)
    (dState : ℕ → ℕ → ℕ) (dSites dVals : ℕ → ℕ) : Flipper :=
  Flipper.Reset
    { batchSize := batch
      systemSize := system
      localStates := ls.insertionSort (· ≤ ·)
      sites := fun _ => 0
      values := fun _ => 0
      state := fun _ _ => 0 }
    dState dSites dVals

/-- Model of `Flipper::Flipper(shape, local_states)`: validation (`batch_size < 1`,
`system_size < 1`, empty alphabet each throw `InvalidInputError` with the
message built in the source), then the successful branch. -/
def Flipper.construct (batch system : ℤ) (ls : List ℚ)
    (dState : ℕ → ℕ → ℕ) (dSites dVals : ℕ → ℕ) : Except String Flipper :=
  if batch < 1 then
    Except.error ("invalid batch size: " ++ toString batch ++ "; expected >=1")
  else if system < 1 then
    Except.error ("invalid system size: " ++ toString system ++ "; expected >=1")
  else if ls.isEmpty then
    Except.error "invalid local states: []"
  else
    Except.ok (Flipper.construct0 batch.toNat system.toNat ls dState dSites dVals)

/-- Model of `detail::CheckBatchSize`. -/
def CheckBatchSize (batch : ℤ) : Except String ℤ :=
  if batch ≤ 0 then
    Except.error ("invalid batch size: " ++ toString batch ++ "; expected a positive number")
  else
    Except.ok batch

/-- The acceptance probability computed in `MetropolisLocalV2::Next`:
`(proposed_Y_ - current_Y_).real().exp().square().min(1.0)` per chain. -/
noncomputable def acceptProb (proposed current : ℂ) : ℝ :=
  min (Real.exp (proposed - current).re ^ 2) 1

/-- The acceptance mask `accept_ = randoms_ < (...)` of `MetropolisLocalV2::Next`. -/
noncomputable def acceptance (proposedY currentY : ℕ → ℂ) (randoms : ℕ → ℝ) : ℕ → Bool :=
  fun j =>
    @decide (randoms j < acceptProb (proposedY j) (currentY j)) (Classical.propDecidable _)

/-- State of `MetropolisLocalV2`: the owned `Flipper` and the cached
log-amplitude vector `current_Y_`.  (`proposed_X_`, `proposed_Y_`,
`randoms_`, `accept_` are scratch buffers recomputed from scratch inside
every `Next` and never read before being written, so they are not part of
the persistent state.) -/
structure MetropolisLocalV2 where
  flipper : Flipper
  current_Y : ℕ → ℂ

/-- The delegating body of the `MetropolisLocalV2` constructors: the `Flipper`
is built (validation already done), and
`machine_.LogVal(flipper_.Current(), current_Y_, {})` fills the cache with
the row-wise log-amplitudes of the initial configuration. -/
def MetropolisLocalV2.ofFlipper (machine : (ℕ → ℚ) → ℂ) (f : Flipper) : MetropolisLocalV2 :=
  { flipper := f, current_Y := fun j => machine (f.state j) }

/-- Model of `MetropolisLocalV2::MetropolisLocalV2(machine, batch_size)`:
`CheckBatchSize`, then the `Flipper` constructor, then the initial `LogVal`. -/
def MetropolisLocalV2.construct (machine : (ℕ → ℚ) → ℂ) (batch system : ℤ) (ls : List ℚ)
    (dState : ℕ → ℕ → ℕ) (dSites dVals : ℕ → ℕ) : Except String MetropolisLocalV2 :=
  match CheckBatchSize batch with
  | Except.error e => Except.error e
  | Except.ok b =>
    match Flipper.construct b system ls dState dSites dVals with
    | Except.error e => Except.error e
    | Except.ok f => Except.ok (MetropolisLocalV2.ofFlipper machine f)

/-- Model of `MetropolisLocalV2::Reset`: `flipper_.Reset()` then re-evaluate the
machine on the fresh configuration. -/
def MetropolisLocalV2.Reset (spl : MetropolisLocalV2) (machine : (ℕ → ℚ) → ℂ)
    (dState : ℕ → ℕ → ℕ) (dSites dVals : ℕ → ℕ) : MetropolisLocalV2 :=
  MetropolisLocalV2.ofFlipper machine (spl.flipper.Reset dState dSites dVals)

/-- The tail of `MetropolisLocalV2::Next` once `proposed_Y_` is known:
draw `randoms_`, build `accept_`, update `current_Y_ = accept_.select(proposed_Y_, current_Y_)`,
and call `flipper_.Next(accept_)`. -/
noncomputable def MetropolisLocalV2.NextCore (spl : MetropolisLocalV2) (proposedY : ℕ → ℂ)
    (randoms : ℕ → ℝ) (dSites dVals : ℕ → ℕ) : MetropolisLocalV2 :=
  { flipper := spl.flipper.Next (acceptance proposedY spl.current_Y randoms) dSites dVals
    current_Y := fun j =>
      if acceptance proposedY spl.current_Y randoms j then proposedY j else spl.current_Y j }

/-- Model of `MetropolisLocalV2::Next` with an infallible machine: materialize the
proposed batch (`flipper_.Read(proposed_X_)`), evaluate
`machine_.LogVal(proposed_X_, proposed_Y_, {})` row-wise, then `NextCore`. -/
noncomputable def MetropolisLocalV2.Next (spl : MetropolisLocalV2) (machine : (ℕ → ℚ) → ℂ)
    (randoms : ℕ → ℝ) (dSites dVals : ℕ → ℕ) : MetropolisLocalV2 :=
  spl.NextCore (fun j => machine (spl.flipper.Read j)) randoms dSites dVals

/-- Model of `MetropolisLocalV2::Next` with a fallible machine: the `LogVal` call on
the materialized proposals happens before any write to `current_Y_` or to the
flipper, so a `throw` from the machine leaves the sampler untouched and
propagates unchanged. -/
noncomputable def MetropolisLocalV2.NextE (spl : MetropolisLocalV2)
    (oracle : (ℕ → ℕ → ℚ) → Except String (ℕ → ℂ))
    (randoms : ℕ → ℝ) (dSites dVals : ℕ → ℕ) : Except String MetropolisLocalV2 :=
  match oracle spl.flipper.Read with
  | Except.error e => Except.error e
  | Except.ok proposedY => Except.ok (spl.NextCore proposedY randoms dSites dVals)

/-- One externally triggered mutation of the sampler: a `Reset` or a `Next`
(`Step`), each carrying the random draws it consumes.  Read operations do
not mutate the sampler and need no entry. -/
inductive Op where
  | reset : (ℕ → ℕ → ℕ) → (ℕ → ℕ) → (ℕ → ℕ) → Op
  | step : (ℕ → ℝ) → (ℕ → ℕ) → (ℕ → ℕ) → Op

/-- The `uniform_int_distribution` range contract for the draws consumed by
one operation, for alphabet size `k`: `RandomState` draws lie in
`[0, k-1]` and `RandomValues` draws in `[0, k-2]`. -/
def Op.InRange (k : ℕ) : Op → Prop
  | Op.reset dState _ dVals => (∀ j s, dState j s < k) ∧ (∀ j, dVals j + 1 < k)
  | Op.step _ _ dVals => ∀ j, dVals j + 1 < k

/-- Run one operation. -/
noncomputable def MetropolisLocalV2.runOp (spl : MetropolisLocalV2)
    (machine : (ℕ → ℚ) → ℂ) : Op → MetropolisLocalV2
  | Op.reset dState dSites dVals => spl.Reset machine dState dSites dVals
  | Op.step randoms dSites dVals => spl.Next machine randoms dSites dVals

/-- Run a list of operations in order. -/
noncomputable def MetropolisLocalV2.runOps (spl : MetropolisLocalV2)
    (machine : (ℕ → ℚ) → ℂ) : List Op → MetropolisLocalV2
  | [] => spl
  | op :: ops => (spl.runOp machine op).runOps machine ops

/-- Invariant I2: the cached `current_Y_` is the machine's row-wise
log-amplitude of the current configuration, for every chain. -/
def MetropolisLocalV2.CacheConsistent (machine : (ℕ → ℚ) → ℂ)
    (spl : MetropolisLocalV2) : Prop :=
  ∀ j, j < spl.flipper.batchSize → spl.current_Y j = machine (spl.flipper.state j)

/-- The closed integer range `std::uniform_int_distribution<int>{0, k-2}`
drawn from by `Flipper::RandomValues` has upper bound `k - 2` (computed in
`int`, so it may be negative). -/
def valueDrawHi (k : ℕ) : ℤ :=
  (k : ℤ) - 2

/-- Invariant I1 (configuration part): every entry of the configuration
matrix is an element of the stored alphabet. -/
def Flipper.StateInAlphabet (f : Flipper) : Prop :=
  ∀ j s, f.state j s ∈ f.localStates

/-- Invariant I1 (proposal part): every pending proposed value is an element
of the stored alphabet.  Needed because `Flipper::Next` writes `values_(j)`
into the configuration. -/
def Flipper.ValuesInAlphabet (f : Flipper) : Prop :=
  ∀ j, f.values j ∈ f.localStates

/-! ### Concrete inputs used by the witnesses -/

/-- A machine assigning log-amplitude `0` to every configuration row. -/
def zeroMachine : (ℕ → ℚ) → ℂ :=
  fun _ => 0

/-- The all-zero per-chain integer draw stream. -/
def zeroDraw : ℕ → ℕ :=
  fun _ => 0

/-- The all-zero per-cell integer draw stream. -/
def zeroDraw2 : ℕ → ℕ → ℕ :=
  fun _ _ => 0

/-- Uniform-real draws pinned to `1`, which force rejection against any
acceptance probability `≤ 1`. -/
def oneRandom : ℕ → ℝ :=
  fun _ => 1

/-- A concrete flipper: batch 4, system 3, spin-half alphabet, all draws 0.
Its configuration is constantly `-1`, all proposed sites are `0` and all
proposed values are `1`. -/
def flipper0 : Flipper :=
  Flipper.construct0 4 3 [-1, 1] zeroDraw2 zeroDraw zeroDraw

/-- A concrete sampler owning `flipper0` under `zeroMachine`. -/
def sampler0 : MetropolisLocalV2 :=
  MetropolisLocalV2.ofFlipper zeroMachine flipper0

/-- A batched oracle that always throws. -/
def failOracle : (ℕ → ℕ → ℚ) → Except String (ℕ → ℂ) :=
  fun _ => Except.error "boom"

/-- A concrete operation trace: one `Step`, then one `Reset`. -/
def ops0 : List Op :=
  [Op.step oneRandom zeroDraw zeroDraw, Op.reset zeroDraw2 zeroDraw zeroDraw]

/-! ### Helper lemmas -/

lemma getD_mem {ls : List ℚ} {i : ℕ} (h : i < ls.length) (d : ℚ) : ls.getD i d ∈ ls := by
  rw [List.getD_eq_getElem ls d h]
  exact List.getElem_mem h

lemma proposeValue_mem {ls : List ℚ} (cur : ℚ) {idx : ℕ} (h : idx + 1 < ls.length) :
    proposeValue ls cur idx ∈ ls := by
  have hb : idx + (if ls.getD idx 0 ≥ cur then 1 else 0) < ls.length := by
    split <;> omega
  exact getD_mem hb 0

lemma sorted_lt_of_sorted_le_nodup {ls : List ℚ} (hs : ls.Sorted (· ≤ ·)) (hn : ls.Nodup) :
    ls.Sorted (· < ·) :=
  List.Pairwise.imp (fun h => lt_of_le_of_ne h.1 h.2) (List.Pairwise.and hs hn)

/-! ### C1: the index-shift proposal map is a bijection onto the non-current
alphabet values -/

/-- C1.  For a sorted, duplicate-free alphabet of size `k ≥ 2` and a current
value `cur` that is a member of the alphabet, the proposal-value map
`idx ↦ alphabet[idx + (alphabet[idx] ≥ cur ? 1 : 0)]` of
`Flipper::RandomValues` is a bijection from `{0, …, k-2}` onto
`alphabet \ {cur}`: every image is an alphabet member different from `cur`
(no self-transition), the map is injective, and every non-current alphabet
value is hit.  Hence a uniform draw of `idx` yields a uniform distribution
over the `k-1` non-current values. -/
theorem proposal_value_bijection (ls : List ℚ) (cur : ℚ)
    (hsort : ls.Sorted (· ≤ ·)) (hnodup : ls.Nodup)
    (_hlen2 : 2 ≤ ls.length) (hcur : cur ∈ ls) :
    (∀ i, i + 1 < ls.length → proposeValue ls cur i ∈ ls ∧ proposeValue ls cur i ≠ cur) ∧
    (∀ i j, i + 1 < ls.length → j + 1 < ls.length →
      proposeValue ls cur i = proposeValue ls cur j → i = j) ∧
    (∀ x, x ∈ ls → x ≠ cur → ∃ i, i + 1 < ls.length ∧ proposeValue ls cur i = x) := by
  have hlt : ls.Sorted (· < ·) := sorted_lt_of_sorted_le_nodup hsort hnodup
  obtain ⟨m, hm⟩ := List.mem_iff_get.mp hcur
  have hmono := hlt.get_strictMono
  have hbit : ∀ (i : ℕ), i < ls.length →
      ((if ls.getD i 0 ≥ cur then 1 else 0) = if (m : ℕ) ≤ i then 1 else 0) := by
    intro i hi
    have hgd : ls.getD i 0 = ls.get ⟨i, hi⟩ := by
      rw [List.getD_eq_getElem ls 0 hi, List.get_eq_getElem]
    have hcond : (ls.getD i 0 ≥ cur) ↔ ((m : ℕ) ≤ i) := by
      rw [hgd, ← hm, ge_iff_le, hmono.le_iff_le, Fin.le_def]
    simp only [hcond]
  have hkey : ∀ (i : ℕ) (hi : i + 1 < ls.length),
      proposeValue ls cur i =
        ls.get ⟨i + if (m : ℕ) ≤ i then 1 else 0, by split <;> omega⟩ := by
    intro i hi
    unfold proposeValue
    rw [hbit i (by omega)]
    have hb : i + (if (m : ℕ) ≤ i then 1 else 0) < ls.length := by split <;> omega
    rw [List.getD_eq_getElem ls 0 hb, List.get_eq_getElem]
  have hne : ∀ (i : ℕ), i + 1 < ls.length → proposeValue ls cur i ≠ cur := by
    intro i hi hEq
    rw [hkey i hi, ← hm] at hEq
    have h2 := (hnodup.get_inj_iff).mp hEq
    have hv : i + (if (m : ℕ) ≤ i then 1 else 0) = (m : ℕ) := congrArg Fin.val h2
    split at hv <;> omega
  refine ⟨fun i hi => ⟨proposeValue_mem cur hi, hne i hi⟩, ?_, ?_⟩
  · intro i j hi hj hEq
    rw [hkey i hi, hkey j hj] at hEq
    have h2 := (hnodup.get_inj_iff).mp hEq
    have hv : i + (if (m : ℕ) ≤ i then 1 else 0) = j + (if (m : ℕ) ≤ j then 1 else 0) :=
      congrArg Fin.val h2
    split at hv <;> split at hv <;> omega
  · intro x hx hxne
    obtain ⟨p, hp⟩ := List.mem_iff_get.mp hx
    have hvne : (p : ℕ) ≠ (m : ℕ) := by
      intro h
      exact hxne (by rw [← hp, Fin.ext h, hm])
    by_cases hcase : (p : ℕ) < (m : ℕ)
    · refine ⟨(p : ℕ), by have := m.isLt; omega, ?_⟩
      rw [hkey (p : ℕ) (by have := m.isLt; omega), ← hp]
      congr 1
      apply Fin.ext
      simp only [Fin.val_mk, if_neg (by omega : ¬ ((m : ℕ) ≤ (p : ℕ)))]
      omega
    · have hmp : (m : ℕ) < (p : ℕ) := by omega
      refine ⟨(p : ℕ) - 1, by have := p.isLt; omega, ?_⟩
      rw [hkey ((p : ℕ) - 1) (by have := p.isLt; omega), ← hp]
      congr 1
      apply Fin.ext
      simp only [Fin.val_mk, if_pos (by omega : (m : ℕ) ≤ (p : ℕ) - 1)]
      omega

/-! ### C8: materializing the proposed batch -/

/-- C8.  `Flipper::Read(x)` produces, for every chain `j < batchSize`, a row
equal to the current configuration row except that the single entry at the
proposed site `sites_(j)` carries the proposed value `values_(j)`; every
other entry is unchanged.  (`Read` is a `const` member returning a fresh
buffer; in the embedding it is a pure function of the flipper, so the
flipper itself is unchanged by construction.) -/
theorem read_materializes_proposals (f : Flipper) (j s : ℕ) (hj : j < f.batchSize) :
    f.Read j (f.sites j) = f.values j ∧ (s ≠ f.sites j → f.Read j s = f.state j s) := by
  constructor
  · simp [Flipper.Read, hj]
  · intro hs
    simp [Flipper.Read, hs]

/-- Witness for C8 on `flipper0` (chain 0: proposed site `0`, proposed value
`1`, current entries `-1`). -/
theorem read_materializes_proposals_witness :
    0 < flipper0.batchSize ∧ flipper0.Read 0 0 = 1 ∧ flipper0.Read 0 2 = -1 :=
  ⟨by decide, (read_materializes_proposals flipper0 0 2 (by decide)).1,
    (read_materializes_proposals flipper0 0 2 (by decide)).2 (by decide)⟩

/-! ### C3: acceptance probability -/

/-- C3.  In every `MetropolisLocalV2::Next`, for every chain `j`, the
computed acceptance probability `(proposed - current).real().exp().square().min(1.0)`
equals `min(1, exp(2·Re(proposed[j] − current[j])))`, lies in `[0, 1]`
whatever the oracle outputs are, and the chain is accepted (its entry of
`accept_`, the mask committed by `flipper_.Next`, is `true`) iff its uniform
draw is strictly less than that probability. -/
theorem acceptance_probability_spec (proposedY currentY : ℕ → ℂ) (randoms : ℕ → ℝ) (j : ℕ) :
    acceptProb (proposedY j) (currentY j)
        = min 1 (Real.exp (2 * (proposedY j - currentY j).re)) ∧
    0 ≤ acceptProb (proposedY j) (currentY j) ∧
    acceptProb (proposedY j) (currentY j) ≤ 1 ∧
    (acceptance proposedY currentY randoms j = true ↔
      randoms j < acceptProb (proposedY j) (currentY j)) := by
  refine ⟨?_, ?_, ?_, ?_⟩
  · unfold acceptProb
    rw [min_comm]
    congr 1
    rw [two_mul, Real.exp_add, sq]
  · exact le_min (sq_nonneg _) zero_le_one
  · exact min_le_right _ _
  · simp only [acceptance, decide_eq_true_eq]

/-! ### C10: moves that do not decrease the real part are always accepted -/

/-- C10.  For every chain `j` with `Re(proposed[j]) ≥ Re(current[j])`, the
acceptance probability computed by `Next` equals `1`, so any uniform draw in
`[0, 1)` is strictly below it and the chain is accepted regardless of the
draw. -/
theorem uphill_always_accepted (proposedY currentY : ℕ → ℂ) (randoms : ℕ → ℝ) (j : ℕ)
    (hge : (currentY j).re ≤ (proposedY j).re) (hr1 : randoms j < 1) :
    acceptProb (proposedY j) (currentY j) = 1 ∧
    acceptance proposedY currentY randoms j = true := by
  have hd : 0 ≤ (proposedY j - currentY j).re := by
    rw [Complex.sub_re]
    linarith
  have he : 1 ≤ Real.exp (proposedY j - currentY j).re := Real.one_le_exp hd
  have hp : acceptProb (proposedY j) (currentY j) = 1 := by
    unfold acceptProb
    apply min_eq_right
    nlinarith
  refine ⟨hp, ?_⟩
  simp only [acceptance, decide_eq_true_eq, hp]
  exact hr1

/-- Witness for C10: constant proposed log-amplitude `1`, current `0`,
draw `1/2`. -/
theorem uphill_always_accepted_witness :
    ((0 : ℂ)).re ≤ ((1 : ℂ)).re ∧ (1 : ℝ) / 2 < 1 ∧
    acceptProb 1 0 = 1 ∧
    acceptance (fun _ => 1) (fun _ => 0) (fun _ => 1 / 2) 0 = true := by
  have h := uphill_always_accepted (fun _ => 1) (fun _ => 0) (fun _ => 1 / 2) 0
    (by norm_num) (by norm_num)
  exact ⟨by norm_num, by norm_num, h.1, h.2⟩

/-! ### C5: rejected chains are left untouched; proposals are regenerated -/

/-- C5.  In `MetropolisLocalV2::Next`, every chain whose accept-mask entry is
`false` keeps its configuration row and its cached `current_Y_` entry
unchanged; if every chain is rejected, the whole configuration matrix is
identical to before the step; and in all cases a fresh proposal set is
generated: the sites become the new `RandomSites` draws and the values are
recomputed by the `RandomValues` rule from the new draws. -/
theorem rejected_chains_unchanged (spl : MetropolisLocalV2) (machine : (ℕ → ℚ) → ℂ)
    (randoms : ℕ → ℝ) (dSites dVals : ℕ → ℕ) :
    (∀ j, acceptance (fun i => machine (spl.flipper.Read i)) spl.current_Y randoms j = false →
      (∀ s, (spl.Next machine randoms dSites dVals).flipper.state j s = spl.flipper.state j s) ∧
      (spl.Next machine randoms dSites dVals).current_Y j = spl.current_Y j) ∧
    ((∀ j, acceptance (fun i => machine (spl.flipper.Read i)) spl.current_Y randoms j = false) →
      (spl.Next machine randoms dSites dVals).flipper.state = spl.flipper.state) ∧
    (spl.Next machine randoms dSites dVals).flipper.sites = dSites ∧
    (∀ j, (spl.Next machine randoms dSites dVals).flipper.values j =
      proposeValue spl.flipper.localStates
        ((spl.Next machine randoms dSites dVals).flipper.state j (dSites j)) (dVals j)) := by
  refine ⟨?_, ?_, rfl, fun j => rfl⟩
  · intro j hrej
    constructor
    · intro s
      simp [MetropolisLocalV2.Next, MetropolisLocalV2.NextCore, Flipper.Next,
        Flipper.RandomSites, Flipper.RandomValues, hrej]
    · simp [MetropolisLocalV2.Next, MetropolisLocalV2.NextCore, hrej]
  · intro hall
    funext j s
    simp [MetropolisLocalV2.Next, MetropolisLocalV2.NextCore, Flipper.Next,
      Flipper.RandomSites, Flipper.RandomValues, hall j]

/-- Witness for C5: under `zeroMachine` every acceptance probability is `1`
and the pinned draw `1` is not strictly below it, so every chain of
`sampler0` is rejected and its configuration is untouched while the sites
buffer is regenerated. -/
theorem rejected_chains_unchanged_witness :
    acceptance (fun i => zeroMachine (sampler0.flipper.Read i)) sampler0.current_Y oneRandom 0
        = false ∧
    (sampler0.Next zeroMachine oneRandom zeroDraw zeroDraw).flipper.state 0 0 =
      sampler0.flipper.state 0 0 ∧
    (sampler0.Next zeroMachine oneRandom zeroDraw zeroDraw).current_Y 0 =
      sampler0.current_Y 0 ∧
    (sampler0.Next zeroMachine oneRandom zeroDraw zeroDraw).flipper.sites = zeroDraw := by
  have hrej : ∀ j,
      acceptance (fun i => zeroMachine (sampler0.flipper.Read i)) sampler0.current_Y oneRandom j
        = false := by
    intro j
    simp [acceptance, acceptProb, zeroMachine, oneRandom, decide_eq_false_iff_not]
  have h := rejected_chains_unchanged sampler0 zeroMachine oneRandom zeroDraw zeroDraw
  exact ⟨hrej 0, (h.1 0 (hrej 0)).1 0, (h.1 0 (hrej 0)).2, h.2.2.1⟩

/-! ### C7: a throwing oracle aborts the step with state unchanged -/

/-- C7.  In `MetropolisLocalV2::Next` the oracle is called before any write
to `current_Y_` or to the flipper (`NextE`, the fallible model, mutates
nothing before inspecting the oracle result), so when the oracle throws, the
step propagates the error and the caller's sampler still holds the exact
preceding configuration, cache and proposal set; an immediately retried step
re-evaluates the oracle on the same materialized proposals and fails the
same way. -/
theorem failed_oracle_aborts (spl : MetropolisLocalV2)
    (oracle : (ℕ → ℕ → ℚ) → Except String (ℕ → ℂ))
    (randoms : ℕ → ℝ) (dSites dVals : ℕ → ℕ) (e : String)
    (h : oracle spl.flipper.Read = Except.error e) :
    spl.NextE oracle randoms dSites dVals = Except.error e ∧
    (∀ randoms2 dSites2 dVals2,
      spl.NextE oracle randoms2 dSites2 dVals2 = Except.error e) := by
  have hstep : ∀ (r : ℕ → ℝ) (ds dv : ℕ → ℕ), spl.NextE oracle r ds dv = Except.error e := by
    intro r ds dv
    unfold MetropolisLocalV2.NextE
    rw [h]
  exact ⟨hstep randoms dSites dVals, hstep⟩

/-- Witness for C7: `failOracle` throws and `NextE` propagates the error. -/
theorem failed_oracle_aborts_witness :
    failOracle sampler0.flipper.Read = Except.error "boom" ∧
    sampler0.NextE failOracle oneRandom zeroDraw zeroDraw = Except.error "boom" :=
  ⟨rfl, (failed_oracle_aborts sampler0 failOracle oneRandom zeroDraw zeroDraw "boom" rfl).1⟩

/-! ### C2: the log-amplitude cache always matches the configuration -/

/-- C2.  With the amplitude oracle a pure per-row function of the
configuration, the cache invariant I2 — `current_Y_[j]` equals the oracle's
log-amplitude of configuration row `j` for every chain `j` — holds after
construction, holds after every `Reset`, and is preserved by every completed
`Next`. -/
theorem cache_consistency (machine : (ℕ → ℚ) → ℂ) :
    (∀ batch system ls dState dSites dVals spl,
      MetropolisLocalV2.construct machine batch system ls dState dSites dVals = Except.ok spl →
      spl.CacheConsistent machine) ∧
    (∀ (spl : MetropolisLocalV2) dState dSites dVals,
      (spl.Reset machine dState dSites dVals).CacheConsistent machine) ∧
    (∀ (spl : MetropolisLocalV2) randoms dSites dVals,
      spl.CacheConsistent machine →
      (spl.Next machine randoms dSites dVals).CacheConsistent machine) := by
  refine ⟨?_, ?_, ?_⟩
  · intro batch system ls dState dSites dVals spl h
    unfold MetropolisLocalV2.construct at h
    split at h
    · exact absurd h (by simp)
    · split at h
      · exact absurd h (by simp)
      · rw [Except.ok.injEq] at h
        subst h
        intro j hj
        rfl
  · intro spl dState dSites dVals j hj
    rfl
  · intro spl randoms dSites dVals hc j hj
    have hj2 : j < spl.flipper.batchSize := hj
    rcases Bool.eq_false_or_eq_true
        (acceptance (fun i => machine (spl.flipper.Read i)) spl.current_Y randoms j) with ha | ha
    · have hstate : (spl.Next machine randoms dSites dVals).flipper.state j =
          spl.flipper.Read j := by
        funext s
        simp [MetropolisLocalV2.Next, MetropolisLocalV2.NextCore, Flipper.Next,
          Flipper.RandomSites, Flipper.RandomValues, Flipper.Read, ha, hj2]
      have hy : (spl.Next machine randoms dSites dVals).current_Y j =
          machine (spl.flipper.Read j) := by
        simp [MetropolisLocalV2.Next, MetropolisLocalV2.NextCore, ha]
      rw [hy, hstate]
    · have hstate : (spl.Next machine randoms dSites dVals).flipper.state j =
          spl.flipper.state j := by
        funext s
        simp [MetropolisLocalV2.Next, MetropolisLocalV2.NextCore, Flipper.Next,
          Flipper.RandomSites, Flipper.RandomValues, ha]
      have hy : (spl.Next machine randoms dSites dVals).current_Y j = spl.current_Y j := by
        simp [MetropolisLocalV2.Next, MetropolisLocalV2.NextCore, ha]
      rw [hy, hstate]
      exact hc j hj2

/-- Witness for C2: the invariant, instantiated at chain 0 of `sampler0`
after one completed `Next`. -/
theorem cache_consistency_witness :
    (sampler0.Next zeroMachine oneRandom zeroDraw zeroDraw).current_Y 0 =
      zeroMachine ((sampler0.Next zeroMachine oneRandom zeroDraw zeroDraw).flipper.state 0) :=
  (cache_consistency zeroMachine).2.2 sampler0 oneRandom zeroDraw zeroDraw
    (fun j hj => rfl) 0 (by decide : (0 : ℕ) < 4)

/-! ### Shared facts about construction -/

lemma checkBatchSize_ok {batch : ℤ} (hb : 1 ≤ batch) : CheckBatchSize batch = Except.ok batch := by
  unfold CheckBatchSize
  rw [if_neg (by omega)]

lemma isEmpty_eq_false_of_ne_nil {ls : List ℚ} (h : ls ≠ []) : ls.isEmpty = false := by
  cases ls with
  | nil => exact absurd rfl h
  | cons a l => rfl

lemma flipper_construct_ok {batch system : ℤ} {ls : List ℚ} (hb : 1 ≤ batch) (hn : 1 ≤ system)
    (hls : ls ≠ []) (dState : ℕ → ℕ → ℕ) (dSites dVals : ℕ → ℕ) :
    Flipper.construct batch system ls dState dSites dVals =
      Except.ok (Flipper.construct0 batch.toNat system.toNat ls dState dSites dVals) := by
  unfold Flipper.construct
  rw [if_neg (by omega), if_neg (by omega), if_neg (by simp [isEmpty_eq_false_of_ne_nil hls])]

lemma mlv2_construct_ok (machine : (ℕ → ℚ) → ℂ) {batch system : ℤ} {ls : List ℚ}
    (hb : 1 ≤ batch) (hn : 1 ≤ system) (hls : ls ≠ [])
    (dState : ℕ → ℕ → ℕ) (dSites dVals : ℕ → ℕ) :
    MetropolisLocalV2.construct machine batch system ls dState dSites dVals =
      Except.ok (MetropolisLocalV2.ofFlipper machine
        (Flipper.construct0 batch.toNat system.toNat ls dState dSites dVals)) := by
  unfold MetropolisLocalV2.construct
  simp only [checkBatchSize_ok hb, flipper_construct_ok hb hn hls dState dSites dVals]

lemma mlv2_construct_error_batch (machine : (ℕ → ℚ) → ℂ) {batch : ℤ} (system : ℤ) (ls : List ℚ)
    (hb : batch < 1) (dState : ℕ → ℕ → ℕ) (dSites dVals : ℕ → ℕ) :
    MetropolisLocalV2.construct machine batch system ls dState dSites dVals =
      Except.error ("invalid batch size: " ++ toString batch ++ "; expected a positive number") := by
  have h1 : CheckBatchSize batch =
      Except.error ("invalid batch size: " ++ toString batch ++ "; expected a positive number") := by
    unfold CheckBatchSize
    rw [if_pos (by omega)]
  unfold MetropolisLocalV2.construct
  simp only [h1]

lemma mlv2_construct_error_system (machine : (ℕ → ℚ) → ℂ) {batch system : ℤ} (ls : List ℚ)
    (hb : 1 ≤ batch) (hn : system < 1) (dState : ℕ → ℕ → ℕ) (dSites dVals : ℕ → ℕ) :
    MetropolisLocalV2.construct machine batch system ls dState dSites dVals =
      Except.error ("invalid system size: " ++ toString system ++ "; expected >=1") := by
  have h2 : Flipper.construct batch system ls dState dSites dVals =
      Except.error ("invalid system size: " ++ toString system ++ "; expected >=1") := by
    unfold Flipper.construct
    rw [if_neg (by omega), if_pos hn]
  unfold MetropolisLocalV2.construct
  simp only [checkBatchSize_ok hb, h2]

lemma mlv2_construct_error_alpha (machine : (ℕ → ℚ) → ℂ) {batch system : ℤ} {ls : List ℚ}
    (hb : 1 ≤ batch) (hn : 1 ≤ system) (hls : ls = [])
    (dState : ℕ → ℕ → ℕ) (dSites dVals : ℕ → ℕ) :
    MetropolisLocalV2.construct machine batch system ls dState dSites dVals =
      Except.error "invalid local states: []" := by
  subst hls
  have h2 : Flipper.construct batch system [] dState dSites dVals =
      Except.error "invalid local states: []" := by
    unfold Flipper.construct
    rw [if_neg (by omega), if_neg (by omega)]
    rfl
  unfold MetropolisLocalV2.construct
  simp only [checkBatchSize_ok hb, h2]

lemma mlv2_construct_ok_elim {machine : (ℕ → ℚ) → ℂ} {batch system : ℤ} {ls : List ℚ}
    {dState : ℕ → ℕ → ℕ} {dSites dVals : ℕ → ℕ} {spl : MetropolisLocalV2}
    (h : MetropolisLocalV2.construct machine batch system ls dState dSites dVals =
      Except.ok spl) :
    1 ≤ batch ∧ 1 ≤ system ∧ ls ≠ [] ∧
      spl = MetropolisLocalV2.ofFlipper machine
        (Flipper.construct0 batch.toNat system.toNat ls dState dSites dVals) := by
  by_cases hb : 1 ≤ batch
  · by_cases hn : 1 ≤ system
    · by_cases hl : ls = []
      · rw [mlv2_construct_error_alpha machine hb hn hl dState dSites dVals] at h
        simp at h
      · rw [mlv2_construct_ok machine hb hn hl dState dSites dVals, Except.ok.injEq] at h
        exact ⟨hb, hn, hl, h.symm⟩
    · rw [mlv2_construct_error_system machine ls hb (by omega) dState dSites dVals] at h
      simp at h
  · rw [mlv2_construct_error_batch machine system ls (by omega) dState dSites dVals] at h
    simp at h

lemma insertionSort_length (ls : List ℚ) :
    (ls.insertionSort (· ≤ ·)).length = ls.length :=
  (List.perm_insertionSort (· ≤ ·) ls).length_eq

lemma construct0_state_mem {batch system : ℕ} {ls : List ℚ} {dState : ℕ → ℕ → ℕ}
    {dSites dVals : ℕ → ℕ} (hd : ∀ j s, dState j s < ls.length) :
    ∀ j s, (Flipper.construct0 batch system ls dState dSites dVals).state j s ∈ ls := by
  intro j s
  have hmem : (ls.insertionSort (· ≤ ·)).getD (dState j s) 0 ∈ ls.insertionSort (· ≤ ·) :=
    getD_mem (by rw [insertionSort_length]; exact hd j s) 0
  exact (List.perm_insertionSort (· ≤ ·) ls).mem_iff.mp hmem

/-! ### C6: construction validation -/

/-- C6.  `MetropolisLocalV2` construction fails with an `InvalidInputError`
naming the offending parameter and its value exactly when `batch_size < 1`
(`CheckBatchSize` fires first, with its own wording), `system_size < 1`, or
the local alphabet is empty; for all other inputs it succeeds and yields a
`batch_size × system_size` configuration every entry of which is an alphabet
member (given in-range `RandomState` draws). -/
theorem construction_validation (machine : (ℕ → ℚ) → ℂ) (batch system : ℤ) (ls : List ℚ)
    (dState : ℕ → ℕ → ℕ) (dSites dVals : ℕ → ℕ) :
    ((MetropolisLocalV2.construct machine batch system ls dState dSites dVals).isOk = true ↔
      1 ≤ batch ∧ 1 ≤ system ∧ ls ≠ []) ∧
    (batch < 1 → MetropolisLocalV2.construct machine batch system ls dState dSites dVals =
      Except.error ("invalid batch size: " ++ toString batch ++ "; expected a positive number")) ∧
    (1 ≤ batch → system < 1 →
      MetropolisLocalV2.construct machine batch system ls dState dSites dVals =
        Except.error ("invalid system size: " ++ toString system ++ "; expected >=1")) ∧
    (1 ≤ batch → 1 ≤ system → ls = [] →
      MetropolisLocalV2.construct machine batch system ls dState dSites dVals =
        Except.error "invalid local states: []") ∧
    (∀ spl, MetropolisLocalV2.construct machine batch system ls dState dSites dVals =
        Except.ok spl →
      spl.flipper.batchSize = batch.toNat ∧ spl.flipper.systemSize = system.toNat ∧
      ((∀ j s, dState j s < ls.length) → ∀ j s, spl.flipper.state j s ∈ ls)) := by
  refine ⟨⟨?_, ?_⟩,
    fun hb => mlv2_construct_error_batch machine system ls hb dState dSites dVals,
    fun hb hn => mlv2_construct_error_system machine ls hb hn dState dSites dVals,
    fun hb hn hl => mlv2_construct_error_alpha machine hb hn hl dState dSites dVals, ?_⟩
  · intro h
    by_cases hb : 1 ≤ batch
    · by_cases hn : 1 ≤ system
      · by_cases hl : ls = []
        · rw [mlv2_construct_error_alpha machine hb hn hl dState dSites dVals] at h
          simp [Except.isOk, Except.toBool] at h
        · exact ⟨hb, hn, hl⟩
      · rw [mlv2_construct_error_system machine ls hb (by omega) dState dSites dVals] at h
        simp [Except.isOk, Except.toBool] at h
    · rw [mlv2_construct_error_batch machine system ls (by omega) dState dSites dVals] at h
      simp [Except.isOk, Except.toBool] at h
  · rintro ⟨hb, hn, hl⟩
    rw [mlv2_construct_ok machine hb hn hl dState dSites dVals]
    rfl
  · intro spl hspl
    obtain ⟨hb, hn, hl, hval⟩ := mlv2_construct_ok_elim hspl
    subst hval
    exact ⟨rfl, rfl, fun hd => construct0_state_mem hd⟩

/-- Witness for C6: construction succeeds on `(4, 3, [-1, 1])` and fails on
batch size `0` with the exact `CheckBatchSize` message. -/
theorem construction_validation_witness :
    (MetropolisLocalV2.construct zeroMachine 4 3 [-1, 1] zeroDraw2 zeroDraw zeroDraw).isOk
        = true ∧
    MetropolisLocalV2.construct zeroMachine 0 3 [-1, 1] zeroDraw2 zeroDraw zeroDraw =
      Except.error "invalid batch size: 0; expected a positive number" ∧
    sampler0.flipper.state 0 0 ∈ ([-1, 1] : List ℚ) := by
  refine ⟨?_, ?_, ?_⟩
  · exact (construction_validation zeroMachine 4 3 [-1, 1] zeroDraw2 zeroDraw zeroDraw).1.mpr
      ⟨by norm_num, by norm_num, by decide⟩
  · have h := (construction_validation zeroMachine 0 3 [-1, 1] zeroDraw2 zeroDraw
      zeroDraw).2.1 (by norm_num)
    rw [h]
    rfl
  · exact ((construction_validation zeroMachine 4 3 [-1, 1] zeroDraw2 zeroDraw zeroDraw).2.2.2.2
      sampler0 rfl).2.2 (fun j s => (by decide : (0 : ℕ) < 2)) 0 0

/-! ### C9: the value-draw range of a successfully constructed sampler -/

/-- C9 counterexample.  The constructor validates only non-emptiness of the
alphabet, so the singleton alphabet `[0]` is accepted — yet the value-draw
range `[0, |alphabet| - 2] = [0, -1]` used by `Flipper::RandomValues` is
then inverted (its `int` upper bound is negative), contradicting the claim
that a successfully constructed sampler never draws from an empty or
inverted range (and in particular its "alphabet of size 1" case). -/
theorem singleton_alphabet_inverted_range :
    (Flipper.construct 1 1 [0] zeroDraw2 zeroDraw zeroDraw).isOk = true ∧
    valueDrawHi 1 < 0 :=
  ⟨by decide, by decide⟩

/-- C9 amended.  For every input accepted by the `Flipper` constructor the
alphabet is non-empty, and the value-draw range `[0, |alphabet| - 2]` of
`RandomValues` is non-empty if and only if the alphabet has at least two
elements; a singleton alphabet is accepted by the constructor but makes
every subsequent proposal-value draw range inverted. -/
theorem value_draw_range_nonempty_iff (batch system : ℤ) (ls : List ℚ)
    (dState : ℕ → ℕ → ℕ) (dSites dVals : ℕ → ℕ) (f : Flipper)
    (hok : Flipper.construct batch system ls dState dSites dVals = Except.ok f) :
    f.localStates.length = ls.length ∧ 1 ≤ ls.length ∧
    (0 ≤ valueDrawHi f.localStates.length ↔ 2 ≤ ls.length) := by
  by_cases hb : 1 ≤ batch
  · by_cases hn : 1 ≤ system
    · by_cases hl : ls = []
      · subst hl
        unfold Flipper.construct at hok
        rw [if_neg (by omega), if_neg (by omega)] at hok
        simp at hok
      · rw [flipper_construct_ok hb hn hl dState dSites dVals, Except.ok.injEq] at hok
        subst hok
        have hlen : (Flipper.construct0 batch.toNat system.toNat ls dState dSites
            dVals).localStates.length = ls.length := insertionSort_length ls
        have hpos : 1 ≤ ls.length := by
          cases ls with
          | nil => exact absurd rfl hl
          | cons a l => simp
        refine ⟨hlen, hpos, ?_⟩
        rw [hlen]
        unfold valueDrawHi
        omega
    · unfold Flipper.construct at hok
      rw [if_neg (by omega), if_pos (by omega)] at hok
      simp at hok
  · unfold Flipper.construct at hok
    rw [if_pos (by omega)] at hok
    simp at hok

/-- Witness for C9 (amended) on the two-element alphabet `[-1, 1]`. -/
theorem value_draw_range_nonempty_iff_witness :
    flipper0.localStates.length = ([-1, 1] : List ℚ).length ∧
    (0 ≤ valueDrawHi flipper0.localStates.length ↔ 2 ≤ ([-1, 1] : List ℚ).length) := by
  have h := value_draw_range_nonempty_iff 4 3 [-1, 1] zeroDraw2 zeroDraw zeroDraw flipper0 rfl
  exact ⟨h.1, h.2.2⟩

/-! ### C4: alphabet membership is invariant under any operation sequence -/

lemma randomState_stateWF {f : Flipper} {dState : ℕ → ℕ → ℕ}
    (hd : ∀ j s, dState j s < f.localStates.length) :
    (f.RandomState dState).StateInAlphabet :=
  fun j s => getD_mem (hd j s) 0

lemma randomValues_valuesWF {f : Flipper} {dVals : ℕ → ℕ}
    (hd : ∀ j, dVals j + 1 < f.localStates.length) :
    (f.RandomValues dVals).ValuesInAlphabet :=
  fun j => proposeValue_mem _ (hd j)

lemma flipper_reset_WF {f : Flipper} {dState : ℕ → ℕ → ℕ} {dSites dVals : ℕ → ℕ}
    (hdS : ∀ j s, dState j s < f.localStates.length)
    (hdV : ∀ j, dVals j + 1 < f.localStates.length) :
    (f.Reset dState dSites dVals).StateInAlphabet ∧
      (f.Reset dState dSites dVals).ValuesInAlphabet :=
  ⟨randomState_stateWF hdS, randomValues_valuesWF hdV⟩

lemma flipper_next_WF {f : Flipper} {accept : ℕ → Bool} {dSites dVals : ℕ → ℕ}
    (hS : f.StateInAlphabet) (hV : f.ValuesInAlphabet)
    (hdV : ∀ j, dVals j + 1 < f.localStates.length) :
    (f.Next accept dSites dVals).StateInAlphabet ∧
      (f.Next accept dSites dVals).ValuesInAlphabet := by
  constructor
  · intro j s
    show (if j < f.batchSize ∧ accept j = true ∧ s = f.sites j
        then f.values j else f.state j s) ∈ f.localStates
    split
    · exact hV j
    · exact hS j s
  · exact randomValues_valuesWF hdV

lemma runOps_WF (machine : (ℕ → ℚ) → ℂ) (k : ℕ) :
    ∀ (ops : List Op) (spl : MetropolisLocalV2),
      spl.flipper.localStates.length = k →
      spl.flipper.StateInAlphabet → spl.flipper.ValuesInAlphabet →
      (∀ op ∈ ops, op.InRange k) →
      (spl.runOps machine ops).flipper.StateInAlphabet ∧
      (spl.runOps machine ops).flipper.ValuesInAlphabet ∧
      (spl.runOps machine ops).flipper.localStates = spl.flipper.localStates := by
  intro ops
  induction ops with
  | nil =>
    intro spl hk hS hV hops
    exact ⟨hS, hV, rfl⟩
  | cons op ops ih =>
    intro spl hk hS hV hops
    have hop := hops op (List.mem_cons_self op ops)
    have hrest := fun o ho => hops o (List.mem_cons_of_mem op ho)
    cases op with
    | reset dState dSites dVals =>
      have hW : (spl.flipper.Reset dState dSites dVals).StateInAlphabet ∧
          (spl.flipper.Reset dState dSites dVals).ValuesInAlphabet :=
        flipper_reset_WF (by rw [hk]; exact hop.1) (by rw [hk]; exact hop.2)
      exact ih (spl.Reset machine dState dSites dVals) hk hW.1 hW.2 hrest
    | step randoms dSites dVals =>
      have hW : (spl.flipper.Next (acceptance (fun i => machine (spl.flipper.Read i))
            spl.current_Y randoms) dSites dVals).StateInAlphabet ∧
          (spl.flipper.Next (acceptance (fun i => machine (spl.flipper.Read i))
            spl.current_Y randoms) dSites dVals).ValuesInAlphabet :=
        flipper_next_WF hS hV (by rw [hk]; exact hop)
      exact ih (spl.Next machine randoms dSites dVals) hk hW.1 hW.2 hrest

/-- C4 (invariant I1).  For every successfully constructed sampler, after
any interleaving of `Reset` and `Step` operations (read operations are pure
and mutate nothing), every entry of the configuration matrix is a member of
the original local alphabet — given the `uniform_int_distribution` range
contract for every integer draw consumed. -/
theorem alphabet_membership (machine : (ℕ → ℚ) → ℂ) (batch system : ℤ) (ls : List ℚ)
    (dState : ℕ → ℕ → ℕ) (dSites dVals : ℕ → ℕ) (spl : MetropolisLocalV2)
    (hok : MetropolisLocalV2.construct machine batch system ls dState dSites dVals =
      Except.ok spl)
    (hdS : ∀ j s, dState j s < ls.length) (hdV : ∀ j, dVals j + 1 < ls.length)
    (ops : List Op) (hops : ∀ op ∈ ops, op.InRange ls.length) :
    ∀ j s, (spl.runOps machine ops).flipper.state j s ∈ ls := by
  obtain ⟨hb, hn, hl, hval⟩ := mlv2_construct_ok_elim hok
  subst hval
  have hk : (MetropolisLocalV2.ofFlipper machine (Flipper.construct0 batch.toNat system.toNat
      ls dState dSites dVals)).flipper.localStates.length = ls.length :=
    insertionSort_length ls
  have hS : (Flipper.construct0 batch.toNat system.toNat ls dState dSites
      dVals).StateInAlphabet := by
    intro j s
    show (ls.insertionSort (· ≤ ·)).getD (dState j s) 0 ∈ ls.insertionSort (· ≤ ·)
    exact getD_mem (by rw [insertionSort_length]; exact hdS j s) 0
  have hV : (Flipper.construct0 batch.toNat system.toNat ls dState dSites
      dVals).ValuesInAlphabet := by
    intro j
    exact proposeValue_mem _
      (show dVals j + 1 < (ls.insertionSort (· ≤ ·)).length by
        rw [insertionSort_length]; exact hdV j)
  have hW := runOps_WF machine ls.length ops
    (MetropolisLocalV2.ofFlipper machine
      (Flipper.construct0 batch.toNat system.toNat ls dState dSites dVals))
    hk hS hV hops
  intro j s
  have hmem := hW.1 j s
  rw [hW.2.2] at hmem
  exact (List.perm_insertionSort (· ≤ ·) ls).mem_iff.mp hmem

/-- Witness for C4: `sampler0` after one `Step` and one `Reset` still has
entry `(0,0)` in the alphabet. -/
theorem alphabet_membership_witness :
    (sampler0.runOps zeroMachine ops0).flipper.state 0 0 ∈ ([-1, 1] : List ℚ) := by
  have hops0 : ∀ op ∈ ops0, Op.InRange ([-1, 1] : List ℚ).length op := by
    intro op hop
    rcases List.mem_cons.mp hop with rfl | hop2
    · exact fun j => (by decide : (0 : ℕ) + 1 < 2)
    · rcases List.mem_cons.mp hop2 with rfl | h3
      · exact ⟨fun j s => (by decide : (0 : ℕ) < 2), fun j => (by decide : (0 : ℕ) + 1 < 2)⟩
      · exact absurd h3 (List.not_mem_nil op)
  exact alphabet_membership zeroMachine 4 3 [-1, 1] zeroDraw2 zeroDraw zeroDraw sampler0 rfl
    (fun j s => (by decide : (0 : ℕ) < 2)) (fun j => (by decide : (0 : ℕ) + 1 < 2)) ops0 hops0 0 0

/-- Witness for C1 on the sorted, duplicate-free alphabet `[-1, 0, 1]` with
current value `0`: both admissible indices map to distinct non-`0` alphabet
members. -/
theorem proposal_value_bijection_witness :
    ([-1, 0, 1] : List ℚ).Sorted (· ≤ ·) ∧ ([-1, 0, 1] : List ℚ).Nodup ∧
    2 ≤ ([-1, 0, 1] : List ℚ).length ∧ (0 : ℚ) ∈ ([-1, 0, 1] : List ℚ) ∧
    (proposeValue [-1, 0, 1] 0 0 ∈ ([-1, 0, 1] : List ℚ) ∧ proposeValue [-1, 0, 1] 0 0 ≠ 0) ∧
    (proposeValue [-1, 0, 1] 0 1 ∈ ([-1, 0, 1] : List ℚ) ∧ proposeValue [-1, 0, 1] 0 1 ≠ 0) := by
  have h := proposal_value_bijection [-1, 0, 1] 0 (by decide) (by decide) (by decide) (by decide)
  exact ⟨by decide, by decide, by decide, by decide, h.1 0 (by decide), h.1 1 (by decide)⟩

end Netket
